import Mathlib

/-!
Verification of the guest-execution host runtime (worker API): memory view,
virtual filesystem bridge syscalls, tar archive loader, guest run lifecycle,
and the front-end diagnostic formatter.

The JavaScript sources are shallowly embedded: Uint8Array byte stores become
functions `Nat → Nat` whose writes truncate modulo 256, JS strings of byte
characters become `List Nat` of character codes, thrown exceptions become
`Except` errors, and the stdin mailbox handshake is modelled by passing the
shared-buffer contents observed after the producer's signal as an argument.
-/

/-- Errors thrown by the runtime: `assert(false)` / `AssertError`,
`AbortError`, and `NotImplemented(modname, fieldname)`. -/
inductive JsError
  | assertError
  | abortError
  | notImplemented (modname fieldname : String)
  deriving DecidableEq, Repr

/-- A guest linear memory seen as its `Uint8Array` view: a total byte store. -/
def GuestMem := Nat → Nat

/-- JS `Memory.read8(o)`: `u8[o]`. -/
def read8 (m : GuestMem) (o : Nat) : Nat := m o

/-- JS `Memory.write8(o, v)`: `u8[o] = v`; a `Uint8Array` store truncates mod 256. -/
def write8 (m : GuestMem) (o v : Nat) : GuestMem :=
  fun a => if a = o then v % 256 else m a

/-- JS `Memory.write(o, buf)` for a byte collection: `dst.set(buf)` at offset `o`,
one byte per element.  (The string overload first maps `charCodeAt` over the
characters, yielding exactly such a code list.) -/
def writeBytes (m : GuestMem) (o : Nat) : List Nat → GuestMem
  | [] => m
  | b :: rest => writeBytes (write8 m o b) (o + 1) rest

/-- Reading `n` raw bytes starting at offset `o`. -/
def readBytes (m : GuestMem) (o n : Nat) : List Nat :=
  (List.range n).map fun i => m (o + i)

/-- Global `readStr(u8, o, len)` on a memory view: decodes bytes starting at `o`,
stopping at the first null byte or after `len` bytes.  Returned as the list
of character codes the JS string would hold. -/
def readStrBytes (m : GuestMem) (o len : Nat) : List Nat :=
  (readBytes m o len).takeWhile (· ≠ 0)

/-- JS `Memory.writeStr(o, str)`: writes the character codes of `str`, then a
null terminator, and returns `str.length + 1`. -/
def writeStr (m : GuestMem) (o : Nat) (s : List Nat) : GuestMem × Nat :=
  let m1 := writeBytes m o s
  (write8 m1 (o + s.length) 0, s.length + 1)

theorem writeBytes_apply_of_lt (l : List Nat) :
    ∀ (m : GuestMem) (o a : Nat), a < o → writeBytes m o l a = m a := by
  induction l with
  | nil => intro m o a _; rfl
  | cons b rest ih =>
    intro m o a ha
    show writeBytes (write8 m o b) (o + 1) rest a = m a
    rw [ih (write8 m o b) (o + 1) a (Nat.lt_succ_of_lt ha)]
    simp [write8, Nat.ne_of_lt ha]

theorem writeBytes_apply_of_ge (l : List Nat) :
    ∀ (m : GuestMem) (o a : Nat), o + l.length ≤ a → writeBytes m o l a = m a := by
  induction l with
  | nil => intro m o a _; rfl
  | cons b rest ih =>
    intro m o a ha
    show writeBytes (write8 m o b) (o + 1) rest a = m a
    have h1 : o + 1 + rest.length ≤ a := by
      simpa [List.length_cons, Nat.add_comm, Nat.add_left_comm, Nat.add_assoc] using ha
    rw [ih (write8 m o b) (o + 1) a h1]
    have : a ≠ o := by
      intro h; subst h
      omega
    simp [write8, this]

theorem writeBytes_apply_get (l : List Nat) :
    ∀ (m : GuestMem) (o i : Nat) (hi : i < l.length),
      writeBytes m o l (o + i) = l.get ⟨i, hi⟩ % 256 := by
  induction l with
  | nil => intro m o i hi; exact absurd hi (Nat.not_lt_zero i)
  | cons b rest ih =>
    intro m o i hi
    show writeBytes (write8 m o b) (o + 1) rest (o + i) = _
    cases i with
    | zero =>
      rw [writeBytes_apply_of_lt rest (write8 m o b) (o + 1) (o + 0) (by omega)]
      simp [write8]
    | succ j =>
      have hj : j < rest.length := by simpa [List.length_cons, Nat.succ_lt_succ_iff] using hi
      have : o + (j + 1) = (o + 1) + j := by omega
      rw [this, ih (write8 m o b) (o + 1) j hj]
      rfl

/-- Claim C7: `writeString(offset, text)` writes the bytes of `text` followed
by one null terminator and returns `length(text)+1`; reading those
`length(text)+1` bytes back from `offset` yields `text ++ [0]`. -/
theorem writeStr_appends_null (m : GuestMem) (o : Nat) (s : List Nat)
    (hbyte : ∀ b ∈ s, b < 256) :
    (writeStr m o s).2 = s.length + 1 ∧
    readBytes (writeStr m o s).1 o (s.length + 1) = s ++ [0] := by
  refine ⟨rfl, ?_⟩
  apply List.ext_get
  · simp [readBytes]
  intro i h1 h2
  simp only [readBytes, List.get_eq_getElem, List.getElem_map, List.getElem_range]
  have hi : i < s.length + 1 := by simpa [readBytes] using h1
  show (write8 (writeBytes m o s) (o + s.length) 0) (o + i) = _
  rcases Nat.lt_or_ge i s.length with hlt | hge
  · have hne : o + i ≠ o + s.length := by omega
    simp only [write8, if_neg hne]
    rw [writeBytes_apply_get s m o i hlt]
    have hmem : s.get ⟨i, hlt⟩ ∈ s := s.get_mem i hlt
    rw [Nat.mod_eq_of_lt (hbyte _ hmem)]
    rw [List.getElem_append_left hlt]
    rfl
  · have heq : i = s.length := by omega
    subst heq
    simp [write8]

/-- Witness for C7 at the spec's concrete instance: `writeString(0, "ab")`
(codes `[97, 98]`) over a memory previously holding 7 everywhere returns 3,
and reading 3 bytes back from offset 0 yields `[97, 98, 0]`. -/
theorem writeStr_appends_null_witness :
    (writeStr (fun _ => 7) 0 [97, 98]).2 = 3 ∧
    readBytes (writeStr (fun _ => 7) 0 [97, 98]).1 0 3 = [97, 98, 0] :=
  writeStr_appends_null (fun _ => 7) 0 [97, 98] (by decide)

/-- One scatter/gather segment as `host_write`/`host_read` decode it from the
guest memory: a `(buffer pointer, length)` pair of consecutive u32 fields. -/
structure Iovec where
  buf : Nat
  len : Nat
  deriving DecidableEq, Repr

/-- The constant `ESUCCESS = 0`. -/
def ESUCCESS : Nat := 0

/-- What one `MemFS.host_write` call produces: the single string passed to
`hostWrite` (as character codes), the byte count stored through
`nwritten_out`, and the syscall return value. -/
structure HostWriteResult where
  text : List Nat
  nwritten : Nat
  ret : Nat
  deriving DecidableEq, Repr

/-- Syscall `MemFS.host_write(fd, iovs, iovs_len, nwritten_out)`: asserts `fd <= 2`,
then for each iovec appends `readStr(buf, len)` (which stops at a null byte)
to the payload and adds `len` to the size; stores the size and forwards the
payload to `hostWrite` exactly once. -/
def host_write (fd : Nat) (mem : GuestMem) (iovs : List Iovec) :
    Except JsError HostWriteResult :=
  if fd ≤ 2 then
    .ok { text := (iovs.map fun iov => readStrBytes mem iov.buf iov.len).flatten
          nwritten := (iovs.map Iovec.len).sum
          ret := ESUCCESS }
  else
    .error .assertError

theorem length_takeWhile_le (p : Nat → Bool) (l : List Nat) :
    (l.takeWhile p).length ≤ l.length := by
  induction l with
  | nil => simp
  | cons b rest ih =>
    rw [List.takeWhile_cons]
    cases hpb : p b with
    | true => simp only [if_true, List.length_cons]; omega
    | false => simp only [Bool.false_eq_true, if_false, List.length_nil, List.length_cons]; omega

theorem length_takeWhile_lt_of_mem_not (p : Nat → Bool) (l : List Nat) (a : Nat)
    (ha : a ∈ l) (hpa : p a = false) : (l.takeWhile p).length < l.length := by
  induction l with
  | nil => exact absurd ha (List.not_mem_nil a)
  | cons b rest ih =>
    rw [List.takeWhile_cons]
    cases hpb : p b with
    | true =>
      have hne : a ≠ b := by
        intro he; rw [he, hpb] at hpa; exact Bool.noConfusion hpa
      have ha' : a ∈ rest := by
        rcases List.mem_cons.mp ha with h1 | h1
        · exact absurd h1 hne
        · exact h1
      simp only [if_true, List.length_cons]
      exact Nat.succ_lt_succ (ih ha')
    | false =>
      simp only [Bool.false_eq_true, if_false, List.length_nil, List.length_cons]
      omega

theorem readStrBytes_of_no_null (mem : GuestMem) (buf len : Nat)
    (h : ∀ j < len, mem (buf + j) ≠ 0) :
    readStrBytes mem buf len = readBytes mem buf len := by
  unfold readStrBytes
  apply List.takeWhile_eq_self_iff.mpr
  intro a ha
  simp only [readBytes, List.mem_map, List.mem_range] at ha
  obtain ⟨i, hi, rfl⟩ := ha
  simpa using h i hi

/-- Claim C4 (amended): for `fd ≤ 2`, if no iovec buffer holds a null byte
within its stated length, `host_write` forwards the in-order concatenation of
the raw buffer contents as one payload and reports the sum of the iovec
lengths as bytes written, returning `ESUCCESS`. -/
theorem host_write_concats_buffers (fd : Nat) (mem : GuestMem) (iovs : List Iovec)
    (hfd : fd ≤ 2) (hnn : ∀ iov ∈ iovs, ∀ j < iov.len, mem (iov.buf + j) ≠ 0) :
    host_write fd mem iovs =
      .ok { text := (iovs.map fun iov => readBytes mem iov.buf iov.len).flatten
            nwritten := (iovs.map Iovec.len).sum
            ret := ESUCCESS } := by
  unfold host_write
  rw [if_pos hfd]
  have hmaps : (iovs.map fun iov => readStrBytes mem iov.buf iov.len)
      = iovs.map fun iov => readBytes mem iov.buf iov.len := by
    apply List.map_congr_left
    intro iov hiov
    exact readStrBytes_of_no_null mem iov.buf iov.len (hnn iov hiov)
  rw [hmaps]

/-- Witness for C4 at the spec's concrete instance: a guest writing the 6
bytes of `"Hello\n"` through one iovec on fd 1 causes one payload equal to
those 6 bytes and reports 6 bytes written. -/
theorem host_write_concats_buffers_witness :
    host_write 1 (fun a => [72, 101, 108, 108, 111, 10].getD a 0) [⟨0, 6⟩] =
      .ok { text := [72, 101, 108, 108, 111, 10], nwritten := 6, ret := 0 } := by
  have h := host_write_concats_buffers 1
    (fun a => [72, 101, 108, 108, 111, 10].getD a 0) [⟨0, 6⟩]
    (by decide) (by decide)
  simpa [readBytes, List.range_succ] using h

/-- Counterexample to claim C4 as stated: with a buffer whose 2 bytes are
`[72, 0]`, the forwarded payload is `[72]`, not the concatenation `[72, 0]`
of the iovec buffers, although 2 bytes are reported written. -/
theorem host_write_null_byte_counterexample :
    host_write 1 (fun a => if a = 0 then 72 else 0) [⟨0, 2⟩] =
      .ok { text := [72], nwritten := 2, ret := 0 } ∧
    readBytes (fun a => if a = 0 then 72 else 0) 0 2 = [72, 0] ∧
    ([72] : List Nat) ≠ [72, 0] := by
  refine ⟨?_, by decide, by decide⟩
  show Except.ok _ = _
  congr 1

/-- Claim C9: `host_write` always reports the sum of the iovec length fields
as bytes written, and whenever some iovec buffer holds a null byte before its
stated length, the forwarded text is strictly shorter than that count. -/
theorem host_write_count_vs_text (fd : Nat) (mem : GuestMem) (iovs : List Iovec)
    (hfd : fd ≤ 2) :
    ∃ r, host_write fd mem iovs = .ok r ∧
      r.nwritten = (iovs.map Iovec.len).sum ∧
      (∀ iov ∈ iovs, (∃ j < iov.len, mem (iov.buf + j) = 0) →
        r.text.length < r.nwritten) := by
  refine ⟨_, by unfold host_write; rw [if_pos hfd], rfl, ?_⟩
  intro iov hiov hnull
  simp only [List.length_flatten, List.map_map]
  apply List.sum_lt_sum
  · intro i _
    simp only [Function.comp_apply]
    calc (readStrBytes mem i.buf i.len).length
        ≤ (readBytes mem i.buf i.len).length := length_takeWhile_le _ _
      _ = i.len := by simp [readBytes]
  · refine ⟨iov, hiov, ?_⟩
    simp only [Function.comp_apply]
    obtain ⟨j, hj, hz⟩ := hnull
    have hmem : (0 : Nat) ∈ readBytes mem iov.buf iov.len := by
      simp only [readBytes, List.mem_map, List.mem_range]
      exact ⟨j, hj, hz⟩
    calc (readStrBytes mem iov.buf iov.len).length
        < (readBytes mem iov.buf iov.len).length := by
          apply length_takeWhile_lt_of_mem_not _ _ 0 hmem
          decide
      _ = iov.len := by simp [readBytes]

/-- Witness for C9: one call with buffers `[72, 0]` and `[65]` reports 3
bytes written while forwarding only 2 characters. -/
theorem host_write_count_vs_text_witness :
    ∃ r, host_write 1 (fun a => if a = 0 then 72 else if a = 8 then 65 else 0)
        [⟨0, 2⟩, ⟨8, 1⟩] = .ok r ∧
      r.nwritten = ([(⟨0, 2⟩ : Iovec), ⟨8, 1⟩].map Iovec.len).sum ∧
      (∀ iov ∈ [(⟨0, 2⟩ : Iovec), ⟨8, 1⟩],
        (∃ j < iov.len, (if iov.buf + j = 0 then 72 else if iov.buf + j = 8 then 65 else 0) = 0) →
        r.text.length < r.nwritten) :=
  host_write_count_vs_text 1 (fun a => if a = 0 then 72 else if a = 8 then 65 else 0)
    [⟨0, 2⟩, ⟨8, 1⟩] (by decide)

/-- The stdin fields of `MemFS`: `stdinStr` (as character codes) and
`stdinStrPos`. -/
structure StdinState where
  stdinStr : List Nat
  stdinStrPos : Nat
  deriving DecidableEq, Repr

/-- The scatter loop of `MemFS.host_read`: for each iovec take
`lenToWrite = min(len, stdinStr.length - stdinStrPos)`; stop when it is 0,
otherwise copy `stdinStr.substr(pos, lenToWrite)` to `buf`, advance `size`
and `pos`, and stop early when the iovec was not filled completely.
Returns the memory, the accumulated size, and the final position. -/
def scatterLoop (stdin : List Nat) : List Iovec → GuestMem → Nat → Nat →
    GuestMem × Nat × Nat
  | [], mem, pos, size => (mem, size, pos)
  | iov :: rest, mem, pos, size =>
    let lenToWrite := min iov.len (stdin.length - pos)
    if lenToWrite = 0 then (mem, size, pos)
    else
      let mem' := writeBytes mem iov.buf ((stdin.drop pos).take lenToWrite)
      if lenToWrite = iov.len then
        scatterLoop stdin rest mem' (pos + lenToWrite) (size + lenToWrite)
      else (mem', size + lenToWrite, pos + lenToWrite)

/-- Everything one `MemFS.host_read` call leaves behind: the stdin fields,
the shared mailbox buffer contents, the guest memory, the count stored
through `nread`, and the syscall result. -/
structure HostReadOut where
  st : StdinState
  mailbox : List Nat
  mem : GuestMem
  nread : Nat
  ret : Except JsError Nat

/-- Syscall `MemFS.host_read(fd, iovs, iovs_len, nread)`.  The call first signals
`hostRead()` and blocks on `Atomics.wait` over the mailbox control word; the
blocking handshake is modelled by taking the shared buffer contents observed
at wake-up as the `mailbox` argument (the producer must null-terminate the
payload: the JS scan loop only stops at a null byte).  The payload up to the
first null byte replaces the stdin string via `setStdinStr` (position 0), the
shared buffer is cleared with `fill(0)`, `assert(fd === 0)` is checked, and
the scatter loop distributes the pending stdin bytes over the iovecs. -/
def host_read (fd : Nat) (st : StdinState) (mailbox : List Nat)
    (mem : GuestMem) (iovs : List Iovec) : HostReadOut :=
  let payload := mailbox.takeWhile (· ≠ 0)
  let st1 : StdinState := { stdinStr := payload, stdinStrPos := 0 }
  let cleared := List.replicate mailbox.length 0
  if fd = 0 then
    let out := scatterLoop st1.stdinStr iovs mem st1.stdinStrPos 0
    { st := { stdinStr := payload, stdinStrPos := out.2.2 }
      mailbox := cleared
      mem := out.1
      nread := out.2.1
      ret := .ok ESUCCESS }
  else
    { st := st1, mailbox := cleared, mem := mem, nread := 0,
      ret := .error .assertError }

theorem scatterLoop_size_pos (stdin : List Nat) :
    ∀ (iovs : List Iovec) (mem : GuestMem) (pos size : Nat),
      (∀ iov ∈ iovs, 0 < iov.len) → pos ≤ stdin.length →
      (scatterLoop stdin iovs mem pos size).2.1
          = size + min ((iovs.map Iovec.len).sum) (stdin.length - pos) ∧
      (scatterLoop stdin iovs mem pos size).2.2
          = pos + min ((iovs.map Iovec.len).sum) (stdin.length - pos) := by
  intro iovs
  induction iovs with
  | nil => intro mem pos size _ _; simp [scatterLoop]
  | cons iov rest ih =>
    intro mem pos size hpos hle
    have hlen : 0 < iov.len := hpos iov (List.mem_cons_self iov rest)
    rw [scatterLoop]
    simp only []
    by_cases h0 : min iov.len (stdin.length - pos) = 0
    · rw [if_pos h0]
      have havail : stdin.length - pos = 0 := by
        rcases Nat.min_eq_zero_iff.mp h0 with h | h
        · omega
        · exact h
      simp [havail]
    · rw [if_neg h0]
      by_cases hfull : min iov.len (stdin.length - pos) = iov.len
      · rw [if_pos hfull]
        have hfit : iov.len ≤ stdin.length - pos := by
          omega
        rw [hfull]
        have hrec := ih (writeBytes mem iov.buf ((stdin.drop pos).take iov.len))
          (pos + iov.len) (size + iov.len)
          (fun i hi => hpos i (List.mem_cons_of_mem iov hi)) (by omega)
        rcases hrec with ⟨hsz, hps⟩
        rw [hsz, hps]
        have hmin : min ((iov.len + (rest.map Iovec.len).sum))
            (stdin.length - pos)
            = iov.len + min ((rest.map Iovec.len).sum) (stdin.length - (pos + iov.len)) := by
          omega
        constructor
        · simp only [List.map_cons, List.sum_cons]
          omega
        · simp only [List.map_cons, List.sum_cons]
          omega
      · rw [if_neg hfull]
        have havail : min iov.len (stdin.length - pos) = stdin.length - pos := by
          omega
        constructor
        · simp only [List.map_cons, List.sum_cons]
          omega
        · simp only [List.map_cons, List.sum_cons]
          omega

theorem readBytes_writeBytes (m : GuestMem) (o : Nat) (l : List Nat)
    (h : ∀ b ∈ l, b < 256) : readBytes (writeBytes m o l) o l.length = l := by
  apply List.ext_get
  · simp [readBytes]
  intro i h1 h2
  simp only [readBytes, List.get_eq_getElem, List.getElem_map, List.getElem_range]
  have hi : i < l.length := by simpa [readBytes] using h1
  show writeBytes m o l (o + i) = _
  rw [writeBytes_apply_get l m o i hi]
  rw [Nat.mod_eq_of_lt (h _ (l.get_mem i hi))]
  rfl

/-- Claim C3 (amended): a `read(fd=0, iovecs)` call that wakes on a
null-terminated mailbox payload, with every iovec of nonzero capacity,
stores `min(total iovec capacity, available payload bytes)` as its count,
advances the stdin position by exactly that count, succeeds, entirely zeroes
the shared mailbox buffer, and — for a single iovec — places exactly the
first `count` payload bytes in the supplied buffer. -/
theorem host_read_short_read (st : StdinState) (mailbox : List Nat)
    (mem : GuestMem) (iovs : List Iovec)
    (hterm : 0 ∈ mailbox) (hcap : ∀ iov ∈ iovs, 0 < iov.len) :
    (host_read 0 st mailbox mem iovs).nread
        = min ((iovs.map Iovec.len).sum) ((mailbox.takeWhile (· ≠ 0)).length) ∧
    (host_read 0 st mailbox mem iovs).st.stdinStrPos
        = (host_read 0 st mailbox mem iovs).nread ∧
    (host_read 0 st mailbox mem iovs).mailbox = List.replicate mailbox.length 0 ∧
    (host_read 0 st mailbox mem iovs).ret = .ok ESUCCESS ∧
    (∀ buf len, iovs = [⟨buf, len⟩] → (∀ b ∈ mailbox, b < 256) →
      readBytes (host_read 0 st mailbox mem iovs).mem buf
          (host_read 0 st mailbox mem iovs).nread
        = (mailbox.takeWhile (· ≠ 0)).take (host_read 0 st mailbox mem iovs).nread) := by
  have hsc := scatterLoop_size_pos (mailbox.takeWhile (· ≠ 0)) iovs mem 0 0 hcap
    (Nat.zero_le _)
  rcases hsc with ⟨hsz, hps⟩
  have hread : host_read 0 st mailbox mem iovs =
      { st := { stdinStr := mailbox.takeWhile (· ≠ 0)
                stdinStrPos := (scatterLoop (mailbox.takeWhile (· ≠ 0)) iovs mem 0 0).2.2 }
        mailbox := List.replicate mailbox.length 0
        mem := (scatterLoop (mailbox.takeWhile (· ≠ 0)) iovs mem 0 0).1
        nread := (scatterLoop (mailbox.takeWhile (· ≠ 0)) iovs mem 0 0).2.1
        ret := .ok ESUCCESS } := by
    unfold host_read
    rw [if_pos rfl]
  rw [hread]
  simp only [Nat.sub_zero, Nat.zero_add] at hsz hps
  refine ⟨hsz, ?_, rfl, rfl, ?_⟩
  · simp only []
    rw [hsz, hps]
  · intro buf len hiovs hbyte
    subst hiovs
    simp only [List.map_cons, List.map_nil, List.sum_cons, List.sum_nil,
      Nat.add_zero] at hsz ⊢
    set payload := mailbox.takeWhile (· ≠ 0) with hpay
    by_cases h0 : min len payload.length = 0
    · rw [hsz, h0]
      simp [readBytes]
    · have hscatter : scatterLoop payload [⟨buf, len⟩] mem 0 0
          = (writeBytes mem buf (payload.take (min len payload.length)),
             min len payload.length, min len payload.length) := by
        rw [scatterLoop]
        simp only [Nat.sub_zero, List.drop_zero]
        rw [if_neg h0]
        by_cases hfull : min len payload.length = len
        · rw [if_pos hfull]
          rw [scatterLoop]
          simp [hfull]
        · rw [if_neg hfull]
          simp
      rw [hscatter]
      simp only []
      have hble : ∀ b ∈ payload.take (min len payload.length), b < 256 := by
        intro b hb
        apply hbyte
        have h1 : b ∈ mailbox.takeWhile (· ≠ 0) := List.take_subset _ _ hb
        exact (List.takeWhile_sublist _).subset h1
      have hlen : (payload.take (min len payload.length)).length
          = min len payload.length := by
        simp only [List.length_take]
        omega
      calc readBytes (writeBytes mem buf (payload.take (min len payload.length)))
              buf (min len payload.length)
          = readBytes (writeBytes mem buf (payload.take (min len payload.length)))
              buf (payload.take (min len payload.length)).length := by rw [hlen]
        _ = payload.take (min len payload.length) := by
            exact readBytes_writeBytes mem buf _ hble

/-- Witness for C3 at the spec's concrete instance: the producer delivers
`"42\n"` (null-terminated) and the guest reads with one 10-byte iovec: the
count is `min(10, 3) = 3`, the position advances to the count, the mailbox
is zeroed, and the buffer receives the 3 payload bytes. -/
theorem host_read_short_read_witness :
    (host_read 0 ⟨[], 0⟩ [52, 50, 10, 0] (fun _ => 0) [⟨0, 10⟩]).nread
        = min (([(⟨0, 10⟩ : Iovec)].map Iovec.len).sum)
            (([52, 50, 10, 0].takeWhile (· ≠ 0)).length) ∧
    (host_read 0 ⟨[], 0⟩ [52, 50, 10, 0] (fun _ => 0) [⟨0, 10⟩]).st.stdinStrPos
        = (host_read 0 ⟨[], 0⟩ [52, 50, 10, 0] (fun _ => 0) [⟨0, 10⟩]).nread ∧
    (host_read 0 ⟨[], 0⟩ [52, 50, 10, 0] (fun _ => 0) [⟨0, 10⟩]).mailbox
        = List.replicate 4 0 ∧
    (host_read 0 ⟨[], 0⟩ [52, 50, 10, 0] (fun _ => 0) [⟨0, 10⟩]).ret = .ok ESUCCESS ∧
    (∀ buf len, [(⟨0, 10⟩ : Iovec)] = [⟨buf, len⟩] →
      (∀ b ∈ [52, 50, 10, 0], b < 256) →
      readBytes (host_read 0 ⟨[], 0⟩ [52, 50, 10, 0] (fun _ => 0) [⟨0, 10⟩]).mem buf
          (host_read 0 ⟨[], 0⟩ [52, 50, 10, 0] (fun _ => 0) [⟨0, 10⟩]).nread
        = ([52, 50, 10, 0].takeWhile (· ≠ 0)).take
            (host_read 0 ⟨[], 0⟩ [52, 50, 10, 0] (fun _ => 0) [⟨0, 10⟩]).nread) :=
  host_read_short_read ⟨[], 0⟩ [52, 50, 10, 0] (fun _ => 0) [⟨0, 10⟩]
    (by decide) (by decide)

/-- Counterexample to claim C3 as stated: with iovecs of capacities 0 and 5
and 3 available payload bytes, the loop stops at the zero-capacity iovec and
reports 0 bytes, not `min(total capacity, available) = 3`. -/
theorem host_read_zero_capacity_counterexample :
    (host_read 0 ⟨[], 0⟩ [97, 98, 99, 0] (fun _ => 0)
        [⟨100, 0⟩, ⟨200, 5⟩]).nread = 0 ∧
    min (([(⟨100, 0⟩ : Iovec), ⟨200, 5⟩].map Iovec.len).sum)
        (([97, 98, 99, 0].takeWhile (· ≠ 0)).length) = 3 ∧
    (0 : Nat) ≠ 3 := by
  refine ⟨?_, by decide, by decide⟩
  rfl

/-- Claim C10: `host_read` ignores the pending stdin state entirely — its
whole result is independent of the prior `stdinStr`/`stdinStrPos` — and the
stdin string after the call is exactly the freshly delivered payload, so
undelivered bytes of an earlier payload are never seen by a later read. -/
theorem host_read_replaces_pending_stdin (fd : Nat) (stA stB : StdinState)
    (mailbox : List Nat) (mem : GuestMem) (iovs : List Iovec) :
    host_read fd stA mailbox mem iovs = host_read fd stB mailbox mem iovs ∧
    (host_read fd stA mailbox mem iovs).st.stdinStr
        = mailbox.takeWhile (· ≠ 0) := by
  refine ⟨rfl, ?_⟩
  unfold host_read
  by_cases h : fd = 0
  · rw [if_pos h]
  · rw [if_neg h]

/-- The sentinel `RAF_PROC_EXIT_CODE = 0xC0C0A`: the reserved sentinel exit code that
allows continued requestAnimationFrame scheduling after exit. -/
def RAF_PROC_EXIT_CODE : Nat := 0xC0C0A

/-- How the guest's `_start()` call ends: a normal return, a thrown
`ProcExit(code)` (the `proc_exit` import), or any other thrown error
(a trap), carrying its `message` and `stack`. -/
inductive StartOutcome
  | normal
  | procExitThrow (code : Nat)
  | trap (msg : String) (stack : String)
  deriving DecidableEq, Repr

/-- The `ProcExit` constructor's message: `process exited with code ${code}.` -/
def procExitMessage (code : Nat) : String :=
  s!"process exited with code {code}."

/-- What one `App.run()` call leaves behind: the strings forwarded through
`memfs.hostWrite`, the final `allowRequestAnimationFrame` flag (initially
`true`), and either the returned value (`some true` for the sentinel,
`some false` for exit code 0, `none` for a normal `_start` return) or the
propagated exception. -/
structure RunOutcome where
  output : List String
  allowRAF : Bool
  result : Except StartOutcome (Option Bool)

/-- Method `App.run()`: on a `ProcExit` with the sentinel code it returns `true`;
otherwise it clears `allowRequestAnimationFrame` and, for code 0, returns
`false`; for any other code (stack suppressed) and for every trap (stack
included) it forwards one highlighted diagnostic built around the failure
message through `hostWrite` and rethrows. -/
def App.run (outcome : StartOutcome) : RunOutcome :=
  match outcome with
  | .normal => { output := [], allowRAF := true, result := .ok none }
  | .procExitThrow code =>
    if code = RAF_PROC_EXIT_CODE then
      { output := [], allowRAF := true, result := .ok (some true) }
    else if code = 0 then
      { output := [], allowRAF := false, result := .ok (some false) }
    else
      { output := ["\x1b[91mError: " ++ procExitMessage code ++ "\x1b[0m\n"]
        allowRAF := false
        result := .error (.procExitThrow code) }
  | .trap msg stack =>
    { output := ["\x1b[91mError: " ++ msg ++ "\n" ++ stack ++ "\x1b[0m\n"]
      allowRAF := true
      result := .error (.trap msg stack) }

/-- Claim C1: a guest terminating via `procExit(code)`: the sentinel code
returns `true` (continued scheduling allowed) with no failure and no output;
code 0 completes normally with no diagnostic and no failure; every other
nonzero code forbids further scheduling, forwards one formatted diagnostic
containing the `ProcExit` failure message through the output sink, and
propagates the failure. -/
theorem run_procExit_cases :
    App.run (.procExitThrow RAF_PROC_EXIT_CODE)
      = { output := [], allowRAF := true, result := .ok (some true) } ∧
    App.run (.procExitThrow 0)
      = { output := [], allowRAF := false, result := .ok (some false) } ∧
    (∀ code, code ≠ 0 → code ≠ RAF_PROC_EXIT_CODE →
      App.run (.procExitThrow code)
        = { output := ["\x1b[91mError: " ++ procExitMessage code ++ "\x1b[0m\n"]
            allowRAF := false
            result := .error (.procExitThrow code) }) := by
  refine ⟨rfl, rfl, ?_⟩
  intro code h0 hraf
  simp only [App.run]
  rw [if_neg hraf, if_neg h0]

/-- Witness for C1 at exit code 1: scheduling is forbidden, one diagnostic
carrying the failure message is emitted, and the failure propagates. -/
theorem run_procExit_cases_witness :
    App.run (.procExitThrow 1)
      = { output := ["\x1b[91mError: " ++ procExitMessage 1 ++ "\x1b[0m\n"]
          allowRAF := false
          result := .error (.procExitThrow 1) } :=
  run_procExit_cases.2.2 1 (by decide) (by decide)

/-- Import `App.clock_time_get(clock_id, precision, time_out)`: throws
`NotImplemented('wasi_unstable', 'clock_time_get')` unconditionally. -/
def clock_time_get (clock_id precision time_out : Nat) : Except JsError Nat :=
  .error (.notImplemented "wasi_unstable" "clock_time_get")

/-- Import `App.poll_oneoff(in_ptr, out_ptr, nsubscriptions, nevents_out)`: throws
`NotImplemented('wasi_unstable', 'poll_oneoff')` unconditionally. -/
def poll_oneoff (in_ptr out_ptr nsubscriptions nevents_out : Nat) :
    Except JsError Nat :=
  .error (.notImplemented "wasi_unstable" "poll_oneoff")

/-- Claim C6: every invocation of `clockTimeGet` or `pollOneoff` fails with
the visible unsupported-syscall error and never produces any return value,
zeroed or otherwise. -/
theorem unimplemented_syscalls_fail (a b c d e f g : Nat) :
    clock_time_get a b c
        = .error (.notImplemented "wasi_unstable" "clock_time_get") ∧
    (∀ v, clock_time_get a b c ≠ .ok v) ∧
    poll_oneoff d e f g
        = .error (.notImplemented "wasi_unstable" "poll_oneoff") ∧
    (∀ v, poll_oneoff d e f g ≠ .ok v) := by
  refine ⟨rfl, ?_, rfl, ?_⟩
  · intro v h
    exact Except.noConfusion h
  · intro v h
    exact Except.noConfusion h

/-- A node of the virtual filesystem: a file with its stored size and
content bytes, or a directory. -/
inductive VNode
  | file (size : Nat) (contents : List Nat)
  | dir
  deriving DecidableEq, Repr

/-- A registration performed through the `MemFS` API. -/
inductive FsOp
  | addFile (path : String) (contents : List Nat)
  | addDirectory (path : String)
  deriving DecidableEq, Repr

/-- The path an `FsOp` registers. -/
def FsOp.path : FsOp → String
  | .addFile p _ => p
  | .addDirectory p => p

/-- Filesystem lookup errors: `NotFound` for an unregistered path. -/
inductive FsError
  | notFound
  deriving DecidableEq, Repr

/-- Modelled from the spec: the node table is owned by the memfs guest
module (the `AddFileNode`, `AddDirectoryNode`, `FindNode`,
`GetFileNodeAddress`, `GetFileNodeSize` exports), whose bytecode is not part
of the JavaScript sources.  Per §4.2 it is a path-addressed store in which
`addFile` allocates a node sized to the contents and re-adding an existing
path replaces it. -/
def applyOp (fs : List (String × VNode)) : FsOp → List (String × VNode)
  | .addFile p c => (p, .file c.length c) :: fs.filter (fun e => e.1 ≠ p)
  | .addDirectory p => (p, .dir) :: fs.filter (fun e => e.1 ≠ p)

/-- The filesystem produced by a sequence of registrations, in order. -/
def buildFs (ops : List FsOp) : List (String × VNode) :=
  ops.foldl applyOp []

/-- Modelled from the spec: `FindNode(path)` — path lookup in the node
table. -/
def findNode (fs : List (String × VNode)) (p : String) : Option VNode :=
  (fs.find? (fun e => e.1 = p)).map (fun e => e.2)

/-- Modelled from the spec: `getFileContents(path)` fails with `NotFound`
when the path is unregistered and otherwise returns the byte view of
`GetFileNodeSize` bytes at `GetFileNodeAddress`. -/
def getFileContents (fs : List (String × VNode)) (p : String) :
    Except FsError (List Nat) :=
  match findNode fs p with
  | none => .error .notFound
  | some (.file size contents) => .ok (contents.take size)
  | some .dir => .ok []

theorem findNode_foldl_none (p : String) :
    ∀ (ops : List FsOp) (fs : List (String × VNode)),
      (∀ op ∈ ops, op.path ≠ p) → (∀ e ∈ fs, e.1 ≠ p) →
      findNode (ops.foldl applyOp fs) p = none := by
  intro ops
  induction ops with
  | nil =>
    intro fs _ hfs
    rw [List.foldl_nil]
    unfold findNode
    rw [List.find?_eq_none.mpr]
    · rfl
    · intro e he
      simpa using hfs e he
  | cons op rest ih =>
    intro fs hops hfs
    rw [List.foldl_cons]
    apply ih
    · intro o ho
      exact hops o (List.mem_cons_of_mem op ho)
    · intro e he
      have hop : op.path ≠ p := hops op (List.mem_cons_self op rest)
      cases op with
      | addFile q c =>
        simp only [applyOp] at he
        rcases List.mem_cons.mp he with h1 | h1
        · rw [h1]
          exact hop
        · exact hfs e (List.mem_of_mem_filter h1)
      | addDirectory q =>
        simp only [applyOp] at he
        rcases List.mem_cons.mp he with h1 | h1
        · rw [h1]
          exact hop
        · exact hfs e (List.mem_of_mem_filter h1)

theorem file_size_eq_length_foldl :
    ∀ (ops : List FsOp) (fs : List (String × VNode)),
      (∀ q size contents, (q, VNode.file size contents) ∈ fs → size = contents.length) →
      ∀ q size contents, (q, VNode.file size contents) ∈ ops.foldl applyOp fs →
        size = contents.length := by
  intro ops
  induction ops with
  | nil =>
    intro fs hfs q size contents hmem
    rw [List.foldl_nil] at hmem
    exact hfs q size contents hmem
  | cons op rest ih =>
    intro fs hfs q size contents hmem
    rw [List.foldl_cons] at hmem
    refine ih (applyOp fs op) ?_ q size contents hmem
    intro q' size' contents' hmem'
    cases op with
    | addFile r c =>
      simp only [applyOp] at hmem'
      rcases List.mem_cons.mp hmem' with h1 | h1
      · have h2 := Prod.mk.injEq .. ▸ h1
        have hnode : VNode.file size' contents' = VNode.file c.length c := by
          exact congrArg Prod.snd h1
        cases hnode
        rfl
      · exact hfs q' size' contents' (List.mem_of_mem_filter h1)
    | addDirectory r =>
      simp only [applyOp] at hmem'
      rcases List.mem_cons.mp hmem' with h1 | h1
      · exact absurd (congrArg Prod.snd h1) (by simp)
      · exact hfs q' size' contents' (List.mem_of_mem_filter h1)

/-- Claim C2: a path never registered by `addFile`/`addDirectory` makes
`getFileContents` fail with `NotFound`; a path whose node is a registered
file yields a byte view of exactly the stored node size. -/
theorem getFileContents_not_found_or_exact (ops : List FsOp) (p : String) :
    ((∀ op ∈ ops, op.path ≠ p) →
      getFileContents (buildFs ops) p = .error .notFound) ∧
    (∀ size contents, findNode (buildFs ops) p = some (.file size contents) →
      ∃ v, getFileContents (buildFs ops) p = .ok v ∧ v.length = size) := by
  constructor
  · intro hnone
    unfold getFileContents buildFs
    rw [findNode_foldl_none p ops [] hnone (by intro e he; cases he)]
  · intro size contents hfind
    refine ⟨contents.take size, ?_, ?_⟩
    · unfold getFileContents
      rw [hfind]
    · have hmem : (p, VNode.file size contents) ∈ buildFs ops := by
        unfold findNode at hfind
        rcases Option.map_eq_some'.mp hfind with ⟨e, he1, he2⟩
        have hfst : e.1 = p := by
          have := List.find?_some he1
          simpa using this
        have := List.mem_of_find?_eq_some he1
        rcases e with ⟨q, node⟩
        cases hfst
        cases he2
        exact this
      have hsz := file_size_eq_length_foldl ops []
        (by intro q s c h; cases h) p size contents hmem
      rw [List.length_take, hsz]
      exact Nat.min_self _

/-- Witness for C2: after registering `src/` and `src/a.txt` (3 bytes),
the unregistered path `b.txt` yields `NotFound`, and the registered file
yields a view of exactly the stored size. -/
theorem getFileContents_not_found_or_exact_witness :
    getFileContents
        (buildFs [.addDirectory "src/", .addFile "src/a.txt" [104, 105, 10]])
        "b.txt" = .error .notFound ∧
    (∃ v, getFileContents
        (buildFs [.addDirectory "src/", .addFile "src/a.txt" [104, 105, 10]])
        "src/a.txt" = .ok v ∧ v.length = 3) :=
  ⟨(getFileContents_not_found_or_exact
      [.addDirectory "src/", .addFile "src/a.txt" [104, 105, 10]] "b.txt").1
      (by decide),
   (getFileContents_not_found_or_exact
      [.addDirectory "src/", .addFile "src/a.txt" [104, 105, 10]] "src/a.txt").2
      3 [104, 105, 10] (by decide)⟩

/-- Global `readStr(u8, o, len)` over an archive byte array: decodes up to `len`
bytes starting at `o`, stopping at the first null byte, as characters. -/
def listReadStr (u8 : List Nat) (o len : Nat) : List Char :=
  (((u8.drop o).take len).takeWhile (· ≠ 0)).map Char.ofNat

/-- JS `parseInt(str, 8)` as `Tar.readOctal` uses it on header fields: skip
leading spaces, then accumulate octal digits until the first non-digit.
(A field with no digits is NaN in JS; such headers never reach the digit
arithmetic on the paths modelled here, so the fold then yields 0.) -/
def parseOctal (s : List Char) : Nat :=
  ((s.dropWhile (fun c => c = ' ')).takeWhile
      (fun c => '0' ≤ c ∧ c ≤ '7')).foldl (fun acc c => acc * 8 + (c.toNat - 48)) 0

/-- Method `Tar.alignUp()`: round the offset up to the next 512-byte boundary
(`(offset + 511) & ~511`). -/
def alignUp (o : Nat) : Nat := (o + 511) / 512 * 512

/-- One parsed ustar header, as `Tar.readEntry` builds it. -/
structure TarEntry where
  filename : List Char
  mode : Nat
  owner : Nat
  group : Nat
  size : Nat
  mtim : Nat
  checksum : Nat
  type : List Char
  linkname : List Char
  ownerName : List Char
  groupName : List Char
  devMajor : List Char
  devMinor : List Char
  filenamePrefix : List Char
  contents : List Nat
  deriving DecidableEq, Repr

/-- Method `Tar.readEntry()` at a given offset: `none` when fewer than 512 bytes
remain or the magic is not `"ustar  "`; for type flag `'0'` the contents
follow (padded to the next boundary), type `'5'` carries none, and any other
flag hits `assert(false)`.  Returns the entry and the next offset. -/
def readEntry (u8 : List Nat) (offset : Nat) :
    Except JsError (Option (TarEntry × Nat)) :=
  if u8.length < offset + 512 then .ok none
  else
    let filename := listReadStr u8 offset 100
    let mode := parseOctal (listReadStr u8 (offset + 100) 8)
    let owner := parseOctal (listReadStr u8 (offset + 108) 8)
    let group := parseOctal (listReadStr u8 (offset + 116) 8)
    let size := parseOctal (listReadStr u8 (offset + 124) 12)
    let mtim := parseOctal (listReadStr u8 (offset + 136) 12)
    let checksum := parseOctal (listReadStr u8 (offset + 148) 8)
    let ty := listReadStr u8 (offset + 156) 1
    let linkname := listReadStr u8 (offset + 157) 100
    if listReadStr u8 (offset + 257) 8 ≠ "ustar  ".toList then .ok none
    else
      let ownerName := listReadStr u8 (offset + 265) 32
      let groupName := listReadStr u8 (offset + 297) 32
      let devMajor := listReadStr u8 (offset + 329) 8
      let devMinor := listReadStr u8 (offset + 337) 8
      let filenamePrefix := listReadStr u8 (offset + 345) 155
      let afterHeader := alignUp (offset + 500)
      if ty = ['0'] then
        .ok (some
          ({ filename := filename, mode := mode, owner := owner, group := group,
             size := size, mtim := mtim, checksum := checksum, type := ty,
             linkname := linkname, ownerName := ownerName, groupName := groupName,
             devMajor := devMajor, devMinor := devMinor,
             filenamePrefix := filenamePrefix,
             contents := (u8.drop afterHeader).take size },
           alignUp (afterHeader + size)))
      else if ty = ['5'] then
        .ok (some
          ({ filename := filename, mode := mode, owner := owner, group := group,
             size := size, mtim := mtim, checksum := checksum, type := ty,
             linkname := linkname, ownerName := ownerName, groupName := groupName,
             devMajor := devMajor, devMinor := devMinor,
             filenamePrefix := filenamePrefix, contents := [] },
           afterHeader))
      else .error .assertError

/-- Method `Tar.untar(memfs)` with explicit recursion fuel: repeatedly read an
entry and register it (`addFile` for `'0'`, `addDirectory` for `'5'`),
stopping when `readEntry` yields `null` and propagating its thrown error. -/
def untarLoop (u8 : List Nat) : Nat → Nat → List (String × VNode) →
    Except JsError (List (String × VNode))
  | 0, _, fs => .ok fs
  | fuel + 1, offset, fs =>
    match readEntry u8 offset with
    | .error e => .error e
    | .ok none => .ok fs
    | .ok (some (entry, offset')) =>
      let fs' :=
        if entry.type = ['0'] then
          applyOp fs (.addFile (String.mk entry.filename) entry.contents)
        else if entry.type = ['5'] then
          applyOp fs (.addDirectory (String.mk entry.filename))
        else fs
      untarLoop u8 fuel offset' fs'

/-- Claim C5: an in-range, magic-valid archive entry whose type flag is
neither `'0'` nor `'5'` makes `readEntry` fail with the fatal format error,
and the surrounding load fails identically — the entry is neither skipped
nor applied to the filesystem. -/
theorem readEntry_rejects_unknown_type (u8 : List Nat) (offset : Nat)
    (fs : List (String × VNode)) (fuel : Nat)
    (hin : offset + 512 ≤ u8.length)
    (hmagic : listReadStr u8 (offset + 257) 8 = "ustar  ".toList)
    (h0 : listReadStr u8 (offset + 156) 1 ≠ ['0'])
    (h5 : listReadStr u8 (offset + 156) 1 ≠ ['5']) :
    readEntry u8 offset = .error .assertError ∧
    untarLoop u8 (fuel + 1) offset fs = .error .assertError := by
  have hread : readEntry u8 offset = .error .assertError := by
    unfold readEntry
    rw [if_neg (by omega)]
    simp only []
    rw [if_neg (by simpa using hmagic), if_neg h0, if_neg h5]
  refine ⟨hread, ?_⟩
  unfold untarLoop
  rw [hread]

/-- A 512-byte header whose magic is valid but whose type flag is `'7'`:
zeros up to the type field at offset 156 (byte `55` = `'7'`), zeros through
the linkname, the magic `"ustar  "` with its trailing null at offset 257,
and zeros for the remaining fields. -/
def tarBadTypeBytes : List Nat :=
  List.replicate 156 0 ++ [55] ++ List.replicate 100 0 ++
    [117, 115, 116, 97, 114, 32, 32, 0] ++ List.replicate 247 0

set_option maxRecDepth 8192 in
/-- Witness for C5: loading the concrete header with type flag `'7'` fails
with the fatal format error and registers nothing. -/
theorem readEntry_rejects_unknown_type_witness :
    readEntry tarBadTypeBytes 0 = .error .assertError ∧
    untarLoop tarBadTypeBytes (0 + 1) 0 [] = .error .assertError :=
  readEntry_rejects_unknown_type tarBadTypeBytes 0 [] 0
    (by decide) (by decide) (by decide) (by decide)

/-- JS `msg.split('\n')` with a string separator: split into lines, never
returning an empty list. -/
def splitOnNl : List Char → List (List Char)
  | [] => [[]]
  | c :: rest =>
    if c = '\n' then [] :: splitOnNl rest
    else
      match splitOnNl rest with
      | [] => [[c]]
      | l :: ls => (c :: l) :: ls

/-- The `GetSubstitution` expansion JS `String.replace` applies to a string
replacement: `$$` is a literal dollar, `$&` the matched substring, a dollar
followed by the character 96 (backquote) the portion before the match, `$`
followed by the character 39 (quote) the portion after it; with a string
pattern there are no capture groups, so any other `$` sequence is literal. -/
def expandDollar (before matched after : List Char) : List Char → List Char
  | [] => []
  | c :: r =>
    if c = '$' then
      match r with
      | [] => ['$']
      | d :: r' =>
        if d = '$' then '$' :: expandDollar before matched after r'
        else if d = '&' then matched ++ expandDollar before matched after r'
        else if d = Char.ofNat 96 then before ++ expandDollar before matched after r'
        else if d = Char.ofNat 39 then after ++ expandDollar before matched after r'
        else '$' :: d :: expandDollar before matched after r'
    else c :: expandDollar before matched after r

/-- The scan of `line.replace(tok, repl)` with a string pattern: `pre` holds
the characters already passed over, in reverse; at the first position where
`tok` matches, the expanded replacement is spliced in and the rest is kept
verbatim; with no match the line is returned unchanged. -/
def replaceFirstAux (tok repl : List Char) (pre : List Char) :
    List Char → List Char
  | [] => if tok.isPrefixOf [] then expandDollar pre.reverse tok [] repl else []
  | c :: rest =>
    if tok.isPrefixOf (c :: rest) then
      expandDollar pre.reverse tok ((c :: rest).drop tok.length) repl
        ++ (c :: rest).drop tok.length
    else c :: replaceFirstAux tok repl (c :: pre) rest

/-- JS `line.replace(tok, repl)`: replaces only the first occurrence. -/
def replaceFirst (tok repl s : List Char) : List Char :=
  replaceFirstAux tok repl [] s

/-- The internal execution-wrapper file token `"<exec>"`. -/
def execTok : List Char := "<exec>".toList

/-- Method `API.formatErrorMsg(msg, activeTabName)`: split into lines, keep line 1
and lines 8 onward, apply `line.replace('<exec>', activeTabName)` to each
kept line, and join with newlines. -/
def formatErrorMsg (msg activeTabName : List Char) : List Char :=
  let lines := splitOnNl msg
  let kept := lines.headD [] :: lines.drop 7
  List.intercalate ['\n'] (kept.map (replaceFirst execTok activeTabName))

theorem expandDollar_no_dollar (b m a : List Char) :
    ∀ (repl : List Char), '$' ∉ repl → expandDollar b m a repl = repl := by
  intro repl
  induction repl with
  | nil => intro _; rfl
  | cons c r ih =>
    intro h
    have hc : c ≠ '$' := by
      intro he; exact h (he ▸ List.mem_cons_self c r)
    have hr : '$' ∉ r := fun he => h (List.mem_cons_of_mem c he)
    unfold expandDollar
    rw [if_neg hc, ih hr]

theorem splitOnNl_of_not_mem :
    ∀ (s : List Char), '\n' ∉ s → splitOnNl s = [s] := by
  intro s
  induction s with
  | nil => intro _; rfl
  | cons c rest ih =>
    intro h
    have hc : c ≠ '\n' := by
      intro he; exact h (he ▸ List.mem_cons_self c rest)
    have hr : '\n' ∉ rest := fun he => h (List.mem_cons_of_mem c he)
    unfold splitOnNl
    rw [if_neg hc, ih hr]

theorem splitOnNl_append_newline :
    ∀ (l t : List Char), '\n' ∉ l →
      splitOnNl (l ++ '\n' :: t) = l :: splitOnNl t := by
  intro l
  induction l with
  | nil =>
    intro t _
    show splitOnNl ('\n' :: t) = [] :: splitOnNl t
    rw [splitOnNl]
    rw [if_pos rfl]
  | cons c l' ih =>
    intro t h
    have hc : c ≠ '\n' := by
      intro he; exact h (he ▸ List.mem_cons_self c l')
    have hl' : '\n' ∉ l' := fun he => h (List.mem_cons_of_mem c he)
    show splitOnNl (c :: (l' ++ '\n' :: t)) = (c :: l') :: splitOnNl t
    rw [splitOnNl]
    rw [if_neg hc, ih t hl']

theorem intercalate_nl_cons (l h : List Char) (t : List (List Char)) :
    List.intercalate ['\n'] (l :: h :: t)
      = l ++ '\n' :: List.intercalate ['\n'] (h :: t) := by
  simp [List.intercalate]

theorem splitOnNl_ne_nil : ∀ (msg : List Char), splitOnNl msg ≠ [] := by
  intro msg
  cases msg with
  | nil => exact List.cons_ne_nil [] []
  | cons c rest =>
    unfold splitOnNl
    by_cases hc : c = '\n'
    · rw [if_pos hc]
      exact List.cons_ne_nil [] (splitOnNl rest)
    · rw [if_neg hc]
      cases splitOnNl rest with
      | nil => exact List.cons_ne_nil [c] []
      | cons l ls => exact List.cons_ne_nil (c :: l) ls

theorem splitOnNl_lines_no_newline :
    ∀ (msg : List Char), ∀ l ∈ splitOnNl msg, '\n' ∉ l := by
  intro msg
  induction msg with
  | nil =>
    intro l hl
    rcases List.mem_singleton.mp hl with rfl
    exact List.not_mem_nil '\n'
  | cons c rest ih =>
    intro l hl
    unfold splitOnNl at hl
    by_cases hc : c = '\n'
    · rw [if_pos hc] at hl
      rcases List.mem_cons.mp hl with rfl | h1
      · exact List.not_mem_nil '\n'
      · exact ih l h1
    · rw [if_neg hc] at hl
      rcases hrest : splitOnNl rest with _ | ⟨l0, ls⟩
      · rw [hrest] at hl
        rcases List.mem_singleton.mp hl with rfl
        intro hmem
        rcases List.mem_singleton.mp hmem with rfl
        exact hc rfl
      · rw [hrest] at hl
        rcases List.mem_cons.mp hl with rfl | h1
        · intro hmem
          rcases List.mem_cons.mp hmem with rfl | h2
          · exact hc rfl
          · exact ih l0 (hrest ▸ List.mem_cons_self l0 ls) h2
        · exact ih l (hrest ▸ List.mem_cons_of_mem l0 h1)

theorem intercalate_splitOnNl :
    ∀ (msg : List Char), List.intercalate ['\n'] (splitOnNl msg) = msg := by
  intro msg
  induction msg with
  | nil => rfl
  | cons c rest ih =>
    unfold splitOnNl
    by_cases hc : c = '\n'
    · rw [if_pos hc]
      rcases hrest : splitOnNl rest with _ | ⟨l0, ls⟩
      · exact absurd hrest (splitOnNl_ne_nil rest)
      · rw [hrest] at ih
        rw [intercalate_nl_cons, ih, hc]
        rfl
    · rw [if_neg hc]
      rcases hrest : splitOnNl rest with _ | ⟨l0, ls⟩
      · exact absurd hrest (splitOnNl_ne_nil rest)
      · rw [hrest] at ih
        cases ls with
        | nil =>
          have h1 : List.intercalate ['\n'] [l0] = l0 := by
            simp [List.intercalate]
          have h2 : List.intercalate ['\n'] [c :: l0] = c :: l0 := by
            simp [List.intercalate]
          rw [h2]
          rw [h1] at ih
          rw [ih]
        | cons l1 t =>
          rw [intercalate_nl_cons] at ih ⊢
          rw [← ih]
          rfl

theorem replaceFirstAux_expand (tok repl : List Char) (htok : tok ≠ []) :
    ∀ (p pre s : List Char),
      (∀ i < p.length, tok.isPrefixOf ((p ++ tok ++ s).drop i) = false) →
      replaceFirstAux tok repl pre (p ++ tok ++ s)
        = p ++ expandDollar (pre.reverse ++ p) tok s repl ++ s := by
  intro p
  induction p with
  | nil =>
    intro pre s _
    simp only [List.nil_append, List.append_nil]
    cases tok with
    | nil => exact absurd rfl htok
    | cons t ts =>
      show replaceFirstAux (t :: ts) repl pre (t :: (ts ++ s))
          = expandDollar pre.reverse (t :: ts) s repl ++ s
      unfold replaceFirstAux
      rw [if_pos ?hpre]
      case hpre =>
        apply List.isPrefixOf_iff_prefix.mpr
        exact ⟨s, rfl⟩
      have hdrop : (t :: (ts ++ s)).drop (t :: ts).length = s := by
        show ((t :: ts) ++ s).drop (t :: ts).length = s
        exact List.drop_left (t :: ts) s
      rw [hdrop]
  | cons c p' ih =>
    intro pre s hfirst
    show replaceFirstAux tok repl pre (c :: (p' ++ tok ++ s))
        = c :: (p' ++ expandDollar (pre.reverse ++ (c :: p')) tok s repl ++ s)
    have h0 : tok.isPrefixOf (c :: (p' ++ tok ++ s)) = false := by
      have := hfirst 0 (by simp)
      simpa using this
    unfold replaceFirstAux
    rw [if_neg (by rw [h0]; exact Bool.false_ne_true)]
    have hshift : ∀ i < p'.length,
        tok.isPrefixOf ((p' ++ tok ++ s).drop i) = false := by
      intro i hi
      have := hfirst (i + 1) (by simpa using Nat.succ_lt_succ hi)
      simpa [List.drop_succ_cons] using this
    rw [ih (c :: pre) s hshift]
    have hacc : (c :: pre).reverse ++ p' = pre.reverse ++ (c :: p') := by
      simp
    rw [hacc]

/-- Claim C8 (amended): every diagnostic message is the newline-join of its
newline-free lines; the displayed diagnostic keeps the first line and the
lines from the eighth onward and applies the per-line rewrite to each
retained line; on a line, the first occurrence of the execution-wrapper
token is rewritten to the JS replacement-pattern expansion of the active
file name — the file name itself whenever it contains no dollar — and
occurrences after the first are displayed unchanged. -/
theorem formatErrorMsg_rewrites_each_retained_line :
    (∀ (msg : List Char),
      splitOnNl msg ≠ [] ∧ (∀ l ∈ splitOnNl msg, '\n' ∉ l) ∧
      List.intercalate ['\n'] (splitOnNl msg) = msg) ∧
    (∀ (lines : List (List Char)) (name : List Char),
      lines ≠ [] → (∀ l ∈ lines, '\n' ∉ l) →
      formatErrorMsg (List.intercalate ['\n'] lines) name
        = List.intercalate ['\n']
            ((lines.headD [] :: lines.drop 7).map (replaceFirst execTok name))) ∧
    (∀ (p s name : List Char),
      (∀ i < p.length, execTok.isPrefixOf ((p ++ execTok ++ s).drop i) = false) →
      replaceFirst execTok name (p ++ execTok ++ s)
        = p ++ expandDollar p execTok s name ++ s) ∧
    (∀ (b a name : List Char), '$' ∉ name →
      expandDollar b execTok a name = name) := by
  refine ⟨?_, ?_, ?_, ?_⟩
  · intro msg
    exact ⟨splitOnNl_ne_nil msg, splitOnNl_lines_no_newline msg,
      intercalate_splitOnNl msg⟩
  · intro lines name hne hnl
    have hsplit : splitOnNl (List.intercalate ['\n'] lines) = lines := by
      induction lines with
      | nil => exact absurd rfl hne
      | cons l ls ihl =>
        cases ls with
        | nil =>
          have h1 : List.intercalate ['\n'] [l] = l := by
            simp [List.intercalate]
          rw [h1]
          exact splitOnNl_of_not_mem l (hnl l (List.mem_cons_self l []))
        | cons l1 t =>
          rw [intercalate_nl_cons]
          rw [splitOnNl_append_newline l _ (hnl l (List.mem_cons_self _ _))]
          rw [ihl (List.cons_ne_nil l1 t)
            (fun x hx => hnl x (List.mem_cons_of_mem l hx))]
    unfold formatErrorMsg
    rw [hsplit]
  · intro p s name hfirst
    unfold replaceFirst
    have h := replaceFirstAux_expand execTok name (by decide) p [] s hfirst
    simpa using h
  · intro b a name h
    exact expandDollar_no_dollar b execTok a name h

/-- The traceback of the source's doc comment, with internal lines 2-7 to
be removed and the wrapper token on the retained eighth line. -/
def tracebackLines : List (List Char) :=
  ["Traceback (most recent call last):".toList,
   "  internal 2".toList, "  internal 3".toList, "  internal 4".toList,
   "  internal 5".toList, "  internal 6".toList, "  internal 7".toList,
   "  File \"<exec>\", line 1, in <module>".toList,
   "NameError: name 'x' is not defined".toList]

/-- Witness for C8: the nine-line traceback keeps lines 1, 8 and 9 with the
per-line rewrite applied; on the retained line the first occurrence after
the token-free prefix is rewritten, and for the dollar-free name `a.py` the
expansion is the name itself. -/
theorem formatErrorMsg_rewrites_each_retained_line_witness :
    formatErrorMsg (List.intercalate ['\n'] tracebackLines) "a.py".toList
      = List.intercalate ['\n']
          ((tracebackLines.headD [] :: tracebackLines.drop 7).map
            (replaceFirst execTok "a.py".toList)) ∧
    replaceFirst execTok "a.py".toList
        ("  File \"".toList ++ execTok ++ "\", line 1, in <module>".toList)
      = "  File \"".toList
          ++ expandDollar "  File \"".toList execTok
              "\", line 1, in <module>".toList "a.py".toList
          ++ "\", line 1, in <module>".toList ∧
    expandDollar "  File \"".toList execTok
        "\", line 1, in <module>".toList "a.py".toList = "a.py".toList :=
  ⟨formatErrorMsg_rewrites_each_retained_line.2.1 tracebackLines "a.py".toList
      (by decide) (by decide),
   formatErrorMsg_rewrites_each_retained_line.2.2.1 "  File \"".toList
      "\", line 1, in <module>".toList "a.py".toList (by decide),
   formatErrorMsg_rewrites_each_retained_line.2.2.2 "  File \"".toList
      "\", line 1, in <module>".toList "a.py".toList (by decide)⟩

/-- Counterexample to claim C8 as stated: on a line carrying the token
twice, only the first occurrence is rewritten — the displayed diagnostic
still contains `"<exec>"` instead of the fully rewritten line — and a file
name carrying a replacement pattern (`a$&b`) is not inserted verbatim: its
`$&` expands to the matched token, so the token reappears instead of the
name. -/
theorem formatErrorMsg_double_token_counterexample :
    formatErrorMsg "File \"<exec>\", in <exec>".toList "a.py".toList
        = "File \"a.py\", in <exec>".toList ∧
    execTok <:+: formatErrorMsg "File \"<exec>\", in <exec>".toList "a.py".toList ∧
    formatErrorMsg "File \"<exec>\", in <exec>".toList "a.py".toList
        ≠ "File \"a.py\", in a.py".toList ∧
    formatErrorMsg "x<exec>y".toList "a$&b".toList = "xa<exec>by".toList ∧
    formatErrorMsg "x<exec>y".toList "a$&b".toList ≠ "xa$&by".toList :=
  ⟨by decide, by decide, by decide, by decide, by decide⟩
